import Mathlib

/-!
Verification of the design-token extraction pipeline implemented in
`src/server/cv/extract_tokens.py`.

The pure numeric logic of the pipeline is embedded as functions over `ℚ`
(NumPy/Python floats are modelled by exact rationals).  Results of external
library primitives (OpenCV measurements, coloraide colour conversions,
transcendental functions) are passed in as explicit parameters, and code
paths that can raise a Python exception are modelled with `Option`.
-/

namespace StyleVault

/-- Step of Python `min(snap_points, key=lambda x: abs(x - v))`: the running
best is replaced only when the new key is strictly smaller, so the first
element attaining the minimal key wins. -/
def pyMinStep (v best y : ℚ) : ℚ :=
  if |y - v| < |best - v| then y else best

/-- Python `min(snap_points, key=lambda x: abs(x - v))` as used by
`quantize_values`; `none` models the `ValueError` raised on an empty
sequence. -/
def pyMinAbs (v : ℚ) : List ℚ → Option ℚ
  | [] => none
  | x :: xs => some (xs.foldl (pyMinStep v) x)

/-- Insertion step realizing Python `sorted(list(set(...)))`: the list is
kept strictly ascending and duplicates are dropped. -/
def insertUniq (x : ℚ) : List ℚ → List ℚ
  | [] => [x]
  | y :: ys => if x < y then x :: y :: ys else if x = y then y :: ys else y :: insertUniq x ys

/-- Python `sorted(list(set(l)))`: the strictly ascending enumeration of the
distinct values of `l`. -/
def dedupSort (l : List ℚ) : List ℚ := l.foldr insertUniq []

/-- Option-valued map over a list, `none` as soon as one element fails;
models an exception escaping the Python loop. -/
def mapOpt (f : ℚ → Option ℚ) : List ℚ → Option (List ℚ)
  | [] => some []
  | x :: xs =>
    match f x, mapOpt f xs with
    | some y, some ys => some (y :: ys)
    | _, _ => none

/-- Embedding of `quantize_values` (`extract_tokens.py`, lines 53-64): snap
every value to the closest snap point and return the deduplicated sorted
result; empty input short-circuits to the empty list. -/
def quantize_values (values snap_points : List ℚ) : Option (List ℚ) :=
  if values = [] then some []
  else (mapOpt (fun v => pyMinAbs v snap_points) values).map dedupSort

theorem pyMinFold_spec (v : ℚ) (xs : List ℚ) : ∀ best r : ℚ,
    xs.foldl (pyMinStep v) best = r →
    (r = best ∧ ∀ s ∈ xs, |r - v| ≤ |s - v|) ∨
    (∃ pre suf, xs = pre ++ r :: suf ∧ |r - v| < |best - v| ∧
      (∀ s ∈ pre, |r - v| < |s - v|) ∧ (∀ s ∈ suf, |r - v| ≤ |s - v|)) := by
  induction xs with
  | nil =>
    intro best r hr
    exact Or.inl ⟨hr.symm, by simp⟩
  | cons x xs ih =>
    intro best r hr
    rw [List.foldl_cons] at hr
    by_cases hx : |x - v| < |best - v|
    · rw [show pyMinStep v best x = x from if_pos hx] at hr
      rcases ih x r hr with ⟨heq, hmin⟩ | ⟨pre, suf, hsplit, hlt, hpre, hsuf⟩
      · subst heq
        exact Or.inr ⟨[], xs, by simp, hx, by simp, hmin⟩
      · refine Or.inr ⟨x :: pre, suf, by rw [hsplit, List.cons_append], hlt.trans hx, ?_, hsuf⟩
        intro s hs
        rcases List.mem_cons.mp hs with h | h
        · subst h; exact hlt
        · exact hpre s h
    · have hle : |best - v| ≤ |x - v| := not_lt.mp hx
      rw [show pyMinStep v best x = best from if_neg hx] at hr
      rcases ih best r hr with ⟨heq, hmin⟩ | ⟨pre, suf, hsplit, hlt, hpre, hsuf⟩
      · refine Or.inl ⟨heq, ?_⟩
        intro s hs
        rcases List.mem_cons.mp hs with h | h
        · subst h; rw [heq]; exact hle
        · exact hmin s h
      · refine Or.inr ⟨x :: pre, suf, by rw [hsplit, List.cons_append], hlt, ?_, hsuf⟩
        intro s hs
        rcases List.mem_cons.mp hs with h | h
        · subst h; exact lt_of_lt_of_le hlt hle
        · exact hpre s h

theorem pyMinAbs_spec (v q : ℚ) (S : List ℚ) (h : pyMinAbs v S = some q) :
    q ∈ S ∧ (∀ s ∈ S, |q - v| ≤ |s - v|) ∧
      ∃ pre suf, S = pre ++ q :: suf ∧ ∀ s ∈ pre, |q - v| < |s - v| := by
  match S with
  | [] => exact absurd h (by simp [pyMinAbs])
  | x :: xs =>
    have hq : xs.foldl (pyMinStep v) x = q := by
      have := h
      simp only [pyMinAbs, Option.some.injEq] at this
      exact this
    rcases pyMinFold_spec v xs x q hq with ⟨heq, hmin⟩ | ⟨pre, suf, hsplit, hlt, hpre, hsuf⟩
    · refine ⟨by rw [heq]; exact List.mem_cons_self x xs, ?_, [], xs, by rw [heq]; rfl, ?_⟩
      · intro s hs
        rcases List.mem_cons.mp hs with hsx | hsl
        · rw [hsx, heq]
        · exact hmin s hsl
      · intro s hs; cases hs
    · refine ⟨?_, ?_, x :: pre, suf, by rw [hsplit, List.cons_append], ?_⟩
      · rw [hsplit]
        exact List.mem_cons_of_mem x (List.mem_append_right pre (List.mem_cons_self q suf))
      · intro s hs
        rcases List.mem_cons.mp hs with hsx | hsl
        · subst hsx; exact hlt.le
        · rw [hsplit] at hsl
          rcases List.mem_append.mp hsl with hp | hqs
          · exact (hpre s hp).le
          · rcases List.mem_cons.mp hqs with hsq | hss
            · subst hsq; exact le_rfl
            · exact hsuf s hss
      · intro s hs
        rcases List.mem_cons.mp hs with hsx | hsl
        · subst hsx; exact hlt
        · exact hpre s hsl

theorem pyMinAbs_isSome (v : ℚ) (S : List ℚ) (h : S ≠ []) :
    ∃ q, pyMinAbs v S = some q := by
  match S with
  | [] => exact absurd rfl h
  | x :: xs => exact ⟨xs.foldl (pyMinStep v) x, rfl⟩

theorem pyMinAbs_mem_self (q : ℚ) (S : List ℚ) (h : q ∈ S) :
    pyMinAbs q S = some q := by
  obtain ⟨r, hr⟩ := pyMinAbs_isSome q S (List.ne_nil_of_mem h)
  obtain ⟨-, hmin, -⟩ := pyMinAbs_spec q r S hr
  have h0 : |r - q| ≤ 0 := by simpa using hmin q h
  have : r = q := by
    have := le_antisymm h0 (abs_nonneg _)
    have := abs_eq_zero.mp this
    linarith
  rw [hr, this]

theorem mapOpt_total (f : ℚ → Option ℚ) (l : List ℚ)
    (h : ∀ v ∈ l, ∃ q, f v = some q) :
    ∃ out, mapOpt f l = some out ∧ out.length = l.length ∧
      ∀ q ∈ out, ∃ v ∈ l, f v = some q := by
  induction l with
  | nil => exact ⟨[], rfl, rfl, by simp⟩
  | cons x xs ih =>
    obtain ⟨y, hy⟩ := h x (List.mem_cons_self x xs)
    obtain ⟨out, hout, hlen, hmem⟩ := ih (fun v hv => h v (List.mem_cons_of_mem x hv))
    refine ⟨y :: out, ?_, by simp [hlen], ?_⟩
    · simp only [mapOpt, hy, hout]
    · intro q hq
      rcases List.mem_cons.mp hq with hqy | hqo
      · exact ⟨x, List.mem_cons_self x xs, by rw [← hqy] at hy; exact hy⟩
      · obtain ⟨v, hv, hfv⟩ := hmem q hqo
        exact ⟨v, List.mem_cons_of_mem x hv, hfv⟩

theorem mapOpt_id_of (f : ℚ → Option ℚ) (l : List ℚ)
    (h : ∀ a ∈ l, f a = some a) : mapOpt f l = some l := by
  induction l with
  | nil => rfl
  | cons x xs ih =>
    have hx := h x (List.mem_cons_self x xs)
    have hxs := ih (fun a ha => h a (List.mem_cons_of_mem x ha))
    simp only [mapOpt, hx, hxs]

theorem insertUniq_mem (a x : ℚ) (l : List ℚ) :
    a ∈ insertUniq x l ↔ a = x ∨ a ∈ l := by
  induction l with
  | nil => simp [insertUniq]
  | cons y ys ih =>
    rw [insertUniq]
    split_ifs with h1 h2
    · simp [List.mem_cons]
    · subst h2
      simp only [List.mem_cons]
      tauto
    · simp only [List.mem_cons, ih]
      tauto

theorem insertUniq_sorted (x : ℚ) (l : List ℚ) (h : List.Sorted (· < ·) l) :
    List.Sorted (· < ·) (insertUniq x l) := by
  induction l with
  | nil => simp [insertUniq]
  | cons y ys ih =>
    rw [List.sorted_cons] at h
    obtain ⟨hy, hs⟩ := h
    by_cases h1 : x < y
    · rw [insertUniq, if_pos h1, List.sorted_cons]
      refine ⟨?_, by rw [List.sorted_cons]; exact ⟨hy, hs⟩⟩
      intro b hb
      rcases List.mem_cons.mp hb with hb | hb
      · rw [hb]; exact h1
      · exact h1.trans (hy b hb)
    · by_cases h2 : x = y
      · rw [insertUniq, if_neg h1, if_pos h2, List.sorted_cons]
        exact ⟨hy, hs⟩
      · have hyx : y < x := by
          rcases lt_trichotomy x y with h | h | h
          · exact absurd h h1
          · exact absurd h h2
          · exact h
        rw [insertUniq, if_neg h1, if_neg h2, List.sorted_cons]
        refine ⟨?_, ih hs⟩
        intro b hb
        rcases (insertUniq_mem b x ys).mp hb with hb | hb
        · rw [hb]; exact hyx
        · exact hy b hb

theorem dedupSort_sorted (l : List ℚ) : List.Sorted (· < ·) (dedupSort l) := by
  induction l with
  | nil => simp [dedupSort]
  | cons x xs ih => exact insertUniq_sorted x (dedupSort xs) ih

theorem dedupSort_mem (a : ℚ) (l : List ℚ) : a ∈ dedupSort l ↔ a ∈ l := by
  induction l with
  | nil => simp [dedupSort]
  | cons x xs ih =>
    show a ∈ insertUniq x (dedupSort xs) ↔ _
    rw [insertUniq_mem, ih, List.mem_cons]

theorem dedupSort_eq_self (l : List ℚ) (h : List.Sorted (· < ·) l) :
    dedupSort l = l := by
  induction l with
  | nil => rfl
  | cons x xs ih =>
    rw [List.sorted_cons] at h
    obtain ⟨hx, hs⟩ := h
    show insertUniq x (dedupSort xs) = x :: xs
    rw [ih hs]
    cases xs with
    | nil => rfl
    | cons y ys => exact if_pos (hx y (List.mem_cons_self y ys))

theorem dedupSort_ne_nil (l : List ℚ) (h : l ≠ []) : dedupSort l ≠ [] := by
  match l with
  | [] => exact absurd rfl h
  | x :: xs =>
    intro hcontra
    have : x ∈ dedupSort (x :: xs) := (dedupSort_mem x _).mpr (List.mem_cons_self x xs)
    rw [hcontra] at this
    cases this

/-- Core totality and shape of `quantize_values`: with a nonempty snap set
the function never fails, its output is strictly sorted, each output value
is the snapped image of some input, the output is empty exactly for empty
input, and quantizing again is the identity. -/
theorem quantize_values_core (vs S : List ℚ) (hS : S ≠ []) :
    ∃ out, quantize_values vs S = some out ∧
      List.Sorted (· < ·) out ∧
      (∀ q ∈ out, ∃ v ∈ vs, pyMinAbs v S = some q) ∧
      (vs = [] → out = []) ∧ (vs ≠ [] → out ≠ []) ∧
      quantize_values out S = some out := by
  by_cases hvs : vs = []
  · refine ⟨[], ?_, by simp, by simp, fun _ => rfl, fun h => absurd hvs h, ?_⟩
    · rw [hvs]; rfl
    · rfl
  · obtain ⟨snapped, hsnap, hlen, hmem⟩ :=
      mapOpt_total (fun v => pyMinAbs v S) vs (fun v _ => pyMinAbs_isSome v S hS)
    have hout : quantize_values vs S = some (dedupSort snapped) := by
      rw [quantize_values, if_neg hvs, hsnap]; rfl
    have hsorted : List.Sorted (· < ·) (dedupSort snapped) := dedupSort_sorted snapped
    have hmem2 : ∀ q ∈ dedupSort snapped, ∃ v ∈ vs, pyMinAbs v S = some q := by
      intro q hq
      exact hmem q ((dedupSort_mem q snapped).mp hq)
    have hne : dedupSort snapped ≠ [] := by
      apply dedupSort_ne_nil
      intro hc
      rw [hc] at hlen
      exact hvs (List.length_eq_zero.mp hlen.symm)
    refine ⟨dedupSort snapped, hout, hsorted, hmem2, fun h => absurd h hvs,
      fun _ => hne, ?_⟩
    have hid : ∀ a ∈ dedupSort snapped, pyMinAbs a S = some a := by
      intro a ha
      obtain ⟨v, -, hv⟩ := hmem2 a ha
      obtain ⟨haS, -, -⟩ := pyMinAbs_spec v a S hv
      exact pyMinAbs_mem_self a S haS
    rw [quantize_values, if_neg hne, mapOpt_id_of _ _ hid]
    simp [dedupSort_eq_self _ hsorted]

/-- C2: for every nonempty snap-point list `S` and value list `vs`,
`quantize_values vs S` succeeds; every output element lies in `S` and is a
nearest snap point (ties going to the earliest position in `S`) of some
input value; empty input gives empty output; the output is strictly
ascending, hence deduplicated; and quantizing the output again returns it
unchanged (idempotence). -/
theorem quantize_values_spec (vs S : List ℚ) (hS : S ≠ []) :
    ∃ out, quantize_values vs S = some out ∧
      (∀ q ∈ out, q ∈ S ∧ ∃ v ∈ vs,
        (∀ s ∈ S, |q - v| ≤ |s - v|) ∧
        ∃ pre suf, S = pre ++ q :: suf ∧ ∀ s ∈ pre, |q - v| < |s - v|) ∧
      (vs = [] → out = []) ∧
      List.Sorted (· < ·) out ∧
      quantize_values out S = some out := by
  obtain ⟨out, hout, hsorted, hmem, hemp, -, hidem⟩ := quantize_values_core vs S hS
  refine ⟨out, hout, ?_, hemp, hsorted, hidem⟩
  intro q hq
  obtain ⟨v, hv, hmin⟩ := hmem q hq
  obtain ⟨hqS, hnear, hfirst⟩ := pyMinAbs_spec v q S hmin
  exact ⟨hqS, v, hv, hnear, hfirst⟩

/-- Witness for C2 at `vs = [9, 5]`, `S = [4, 8]`. -/
theorem quantize_values_spec_witness :
    ∃ out, quantize_values [9, 5] [4, 8] = some out ∧
      (∀ q ∈ out, q ∈ ([4, 8] : List ℚ) ∧ ∃ v ∈ ([9, 5] : List ℚ),
        (∀ s ∈ ([4, 8] : List ℚ), |q - v| ≤ |s - v|) ∧
        ∃ pre suf, ([4, 8] : List ℚ) = pre ++ q :: suf ∧ ∀ s ∈ pre, |q - v| < |s - v|) ∧
      (([9, 5] : List ℚ) = [] → out = []) ∧
      List.Sorted (· < ·) out ∧
      quantize_values out [4, 8] = some out :=
  quantize_values_spec [9, 5] [4, 8] (by decide)

/-- A colour converted to the sRGB coordinate space, as accessed through
`rgb['red']`, `rgb['green']`, `rgb['blue']` in `calculate_contrast_ratio`.
Coordinates may fall outside `[0, 1]` (out-of-gamut colours); the code
clamps them before linearizing. -/
structure SRGB where
  red : ℚ
  green : ℚ
  blue : ℚ

/-- The `linearize` helper inside `calculate_contrast_ratio` (lines
316-319).  The real-valued power `x ** 2.4` is passed in as the parameter
`pow24`. -/
def linearize (pow24 : ℚ → ℚ) (v : ℚ) : ℚ :=
  if v ≤ 3928 / 100000 then v / (1292 / 100)
  else pow24 ((v + 55 / 1000) / (1055 / 1000))

/-- The `relative_luminance` helper inside `calculate_contrast_ratio`
(lines 312-325), including the `max(0, min(1, v))` clamping. -/
def relative_luminance (pow24 : ℚ → ℚ) (c : SRGB) : ℚ :=
  2126 / 10000 * linearize pow24 (max 0 (min 1 c.red)) +
  7152 / 10000 * linearize pow24 (max 0 (min 1 c.green)) +
  722 / 10000 * linearize pow24 (max 0 (min 1 c.blue))

/-- Embedding of `calculate_contrast_ratio` (lines 302-333):
`(lighter + 0.05) / (darker + 0.05)` over the two relative luminances. -/
def calculate_contrast_ratio (pow24 : ℚ → ℚ) (c1 c2 : SRGB) : ℚ :=
  let l1 := relative_luminance pow24 c1
  let l2 := relative_luminance pow24 c2
  (max l1 l2 + 5 / 100) / (min l1 l2 + 5 / 100)

theorem linearize_bounds (pow24 : ℚ → ℚ)
    (hpow : ∀ x, 0 ≤ x → x ≤ 1 → 0 ≤ pow24 x ∧ pow24 x ≤ 1) (v : ℚ) :
    0 ≤ linearize pow24 (max 0 (min 1 v)) ∧ linearize pow24 (max 0 (min 1 v)) ≤ 1 := by
  set w := max 0 (min 1 v) with hw
  have hw0 : 0 ≤ w := le_max_left 0 _
  have hw1 : w ≤ 1 := by
    rw [hw]
    rcases le_total 0 (min 1 v) with h | h
    · rw [max_eq_right h]; exact min_le_left 1 v
    · rw [max_eq_left h]; norm_num
  rw [linearize]
  by_cases hb : w ≤ 3928 / 100000
  · rw [if_pos hb]
    constructor
    · positivity
    · rw [div_le_one (by norm_num)]
      linarith
  · rw [if_neg hb]
    have harg0 : 0 ≤ (w + 55 / 1000) / (1055 / 1000) := by positivity
    have harg1 : (w + 55 / 1000) / (1055 / 1000) ≤ 1 := by
      rw [div_le_one (by norm_num)]
      linarith
    exact hpow _ harg0 harg1

theorem relative_luminance_bounds (pow24 : ℚ → ℚ)
    (hpow : ∀ x, 0 ≤ x → x ≤ 1 → 0 ≤ pow24 x ∧ pow24 x ≤ 1) (c : SRGB) :
    0 ≤ relative_luminance pow24 c ∧ relative_luminance pow24 c ≤ 1 := by
  obtain ⟨hr0, hr1⟩ := linearize_bounds pow24 hpow c.red
  obtain ⟨hg0, hg1⟩ := linearize_bounds pow24 hpow c.green
  obtain ⟨hb0, hb1⟩ := linearize_bounds pow24 hpow c.blue
  rw [relative_luminance]
  constructor <;> nlinarith

/-- C5: the WCAG contrast ratio computed by `calculate_contrast_ratio` lies
in `[1, 21]` for every pair of colours, and equals exactly `1` when both
arguments are the same colour.  The transcendental power `x ** 2.4` enters
as any function mapping `[0, 1]` into `[0, 1]`. -/
theorem calculate_contrast_ratio_bounds (pow24 : ℚ → ℚ)
    (hpow : ∀ x, 0 ≤ x → x ≤ 1 → 0 ≤ pow24 x ∧ pow24 x ≤ 1) (c1 c2 c : SRGB) :
    1 ≤ calculate_contrast_ratio pow24 c1 c2 ∧
    calculate_contrast_ratio pow24 c1 c2 ≤ 21 ∧
    calculate_contrast_ratio pow24 c c = 1 := by
  obtain ⟨h10, h11⟩ := relative_luminance_bounds pow24 hpow c1
  obtain ⟨h20, h21⟩ := relative_luminance_bounds pow24 hpow c2
  obtain ⟨hc0, -⟩ := relative_luminance_bounds pow24 hpow c
  set l1 := relative_luminance pow24 c1
  set l2 := relative_luminance pow24 c2
  have hdenpos : 0 < min l1 l2 + 5 / 100 := by
    rcases le_total l1 l2 with h | h
    · rw [min_eq_left h]; linarith
    · rw [min_eq_right h]; linarith
  refine ⟨?_, ?_, ?_⟩
  · rw [calculate_contrast_ratio, le_div_iff₀ hdenpos, one_mul]
    have := min_le_max (a := l1) (b := l2)
    linarith
  · rw [calculate_contrast_ratio, div_le_iff₀ hdenpos]
    have hmax1 : max l1 l2 ≤ 1 := max_le h11 h21
    have hmin0 : 0 ≤ min l1 l2 := le_min h10 h20
    linarith
  · rw [calculate_contrast_ratio]
    simp only [max_self, min_self]
    exact div_self (by linarith)

/-- Witness for C5 with `pow24 = id`, black-ish and white-ish colours, and
a grey colour for the reflexive part. -/
theorem calculate_contrast_ratio_bounds_witness :
    1 ≤ calculate_contrast_ratio (fun x => x) ⟨0, 0, 0⟩ ⟨1, 1, 1⟩ ∧
    calculate_contrast_ratio (fun x => x) ⟨0, 0, 0⟩ ⟨1, 1, 1⟩ ≤ 21 ∧
    calculate_contrast_ratio (fun x => x) ⟨1/2, 1/2, 1/2⟩ ⟨1/2, 1/2, 1/2⟩ = 1 :=
  calculate_contrast_ratio_bounds (fun x => x) (fun _ h0 h1 => ⟨h0, h1⟩)
    ⟨0, 0, 0⟩ ⟨1, 1, 1⟩ ⟨1/2, 1/2, 1/2⟩

/-- A raster image: height, width, and an 8-bit BGR pixel grid, as produced
by `cv2.imread` / `np.frombuffer`. -/
structure Img where
  hgt : ℕ
  wdt : ℕ
  px : ℕ → ℕ → ℕ × ℕ × ℕ

/-- Embedding of `resize_for_speed` (lines 41-50).  `cvResize` supplies the
interpolated pixel content produced by `cv2.resize` for the requested
target size `(nw, nh)`; the dimension arithmetic (`scale = max_width / w`,
`int(w * scale)`, `int(h * scale)` — `int` truncates) is embedded exactly,
with `cv2.resize` receiving `(width, height)`. -/
def resize_for_speed (cvResize : Img → ℕ → ℕ → (ℕ → ℕ → ℕ × ℕ × ℕ))
    (img : Img) (max_width : ℕ) : Img :=
  if img.wdt ≤ max_width then img
  else
    let scale : ℚ := (max_width : ℚ) / (img.wdt : ℚ)
    let nw : ℕ := (⌊(img.wdt : ℚ) * scale⌋).toNat
    let nh : ℕ := (⌊(img.hgt : ℚ) * scale⌋).toNat
    ⟨nh, nw, cvResize img nw nh⟩

/-- Modelled from the spec
words for comparison with `resize_for_speed`: "otherwise scale both
dimensions by `target_max_width / width`, rounding to nearest integer
pixel" — the same computation with round-to-nearest in place of the
truncation the code performs. -/
def resize_for_speed_rounded (cvResize : Img → ℕ → ℕ → (ℕ → ℕ → ℕ × ℕ × ℕ))
    (img : Img) (max_width : ℕ) : Img :=
  if img.wdt ≤ max_width then img
  else
    let scale : ℚ := (max_width : ℚ) / (img.wdt : ℚ)
    let nw : ℕ := (round ((img.wdt : ℚ) * scale)).toNat
    let nh : ℕ := (round ((img.hgt : ℚ) * scale)).toNat
    ⟨nh, nw, cvResize img nw nh⟩

/-- C6 counterexample: a 300-wide, 7-high image downscaled to width 256
gets height `int(7 * 256/300) = 5`, while rounding to the nearest pixel as
the claim states would give height `6`. -/
theorem resize_for_speed_not_round_nearest :
    (resize_for_speed (fun _ _ _ => fun _ _ => (0, 0, 0)) ⟨7, 300, fun _ _ => (0, 0, 0)⟩ 256).hgt ≠
    (resize_for_speed_rounded (fun _ _ _ => fun _ _ => (0, 0, 0)) ⟨7, 300, fun _ _ => (0, 0, 0)⟩ 256).hgt := by
  have h1 : (resize_for_speed (fun _ _ _ => fun _ _ => (0, 0, 0)) ⟨7, 300, fun _ _ => (0, 0, 0)⟩ 256).hgt = 5 := by
    rw [resize_for_speed, if_neg (by norm_num)]
    norm_num [Int.floor_eq_iff]
    decide
  have h2 : (resize_for_speed_rounded (fun _ _ _ => fun _ _ => (0, 0, 0)) ⟨7, 300, fun _ _ => (0, 0, 0)⟩ 256).hgt = 6 := by
    rw [resize_for_speed_rounded, if_neg (by norm_num)]
    norm_num [round_eq, Int.floor_eq_iff]
    decide
  rw [h1, h2]
  decide

/-- C6 amended: `resize_for_speed` returns the image unchanged when its
width is at most the target maximum; otherwise the new width is exactly
the target maximum and the new height is `height * max_width / width`
truncated (floored) to an integer, not rounded to nearest. -/
theorem resize_for_speed_spec (cvResize : Img → ℕ → ℕ → (ℕ → ℕ → ℕ × ℕ × ℕ))
    (img : Img) (max_width : ℕ) :
    (img.wdt ≤ max_width → resize_for_speed cvResize img max_width = img) ∧
    (max_width < img.wdt →
      (resize_for_speed cvResize img max_width).wdt = max_width ∧
      (resize_for_speed cvResize img max_width).hgt
        = (⌊(img.hgt : ℚ) * (max_width : ℚ) / (img.wdt : ℚ)⌋).toNat) := by
  constructor
  · intro h
    rw [resize_for_speed, if_pos h]
  · intro h
    have hne : ¬ img.wdt ≤ max_width := not_le.mpr h
    have hw0 : (img.wdt : ℚ) ≠ 0 := by
      have : 0 < img.wdt := Nat.lt_of_le_of_lt (Nat.zero_le _) h
      exact_mod_cast this.ne.symm
    constructor
    · rw [resize_for_speed, if_neg hne]
      show (⌊(img.wdt : ℚ) * ((max_width : ℚ) / (img.wdt : ℚ))⌋).toNat = max_width
      rw [mul_div_cancel₀ _ hw0]
      simp
    · rw [resize_for_speed, if_neg hne]
      show (⌊(img.hgt : ℚ) * ((max_width : ℚ) / (img.wdt : ℚ))⌋).toNat = _
      rw [mul_div_assoc]

/-- Witness for C6 at a 300-wide image: unchanged for `max_width = 300`,
and truncated dimensions for `max_width = 256`. -/
theorem resize_for_speed_spec_witness :
    resize_for_speed (fun _ _ _ => fun _ _ => (0, 0, 0)) ⟨7, 300, fun _ _ => (0, 0, 0)⟩ 300
      = ⟨7, 300, fun _ _ => (0, 0, 0)⟩ ∧
    (resize_for_speed (fun _ _ _ => fun _ _ => (0, 0, 0)) ⟨7, 300, fun _ _ => (0, 0, 0)⟩ 256).wdt = 256 ∧
    (resize_for_speed (fun _ _ _ => fun _ _ => (0, 0, 0)) ⟨7, 300, fun _ _ => (0, 0, 0)⟩ 256).hgt
      = (⌊((7 : ℚ) * (256 : ℚ) / (300 : ℚ))⌋).toNat := by
  refine ⟨?_, ?_, ?_⟩
  · exact (resize_for_speed_spec (fun _ _ _ => fun _ _ => (0, 0, 0)) ⟨7, 300, fun _ _ => (0, 0, 0)⟩ 300).1 (by norm_num)
  · exact ((resize_for_speed_spec (fun _ _ _ => fun _ _ => (0, 0, 0)) ⟨7, 300, fun _ _ => (0, 0, 0)⟩ 256).2 (by norm_num)).1
  · exact ((resize_for_speed_spec (fun _ _ _ => fun _ _ => (0, 0, 0)) ⟨7, 300, fun _ _ => (0, 0, 0)⟩ 256).2 (by norm_num)).2

/-- Python `round(x, nd)` on an exact rational: round half to even at `nd`
decimal places. -/
def pyRound (x : ℚ) (nd : ℕ) : ℚ :=
  let y := x * 10 ^ nd
  let f := ⌊y⌋
  let r := y - f
  let z : ℤ :=
    if r < 1 / 2 then f
    else if 1 / 2 < r then f + 1
    else if f % 2 = 0 then f else f + 1
  (z : ℚ) / 10 ^ nd

/-- A coloraide colour viewed through its OKLCH coordinates `c['l']`,
`c['c']`, `c['h']`; an undefined (`None`/NaN) hue is `none`. -/
structure OkColor where
  l : ℚ
  c : ℚ
  h : Option ℚ
deriving DecidableEq

/-- An emitted OKLCH token `{"space": "oklch", "l": .., "c": .., "h": ..}`. -/
structure OklchTok where
  space : String
  l : ℚ
  c : ℚ
  h : ℚ
deriving DecidableEq

/-- Token serialization used by `extract_colors` (lines 615-625): round to
3/3/1 decimals and coerce an undefined hue to `0`. -/
def okColorToken (c : OkColor) : OklchTok :=
  ⟨"oklch", pyRound c.l 3, pyRound c.c 3, pyRound (c.h.getD 0) 1⟩

/-- The Delta-E deduplication loop of `extract_colors` (lines 604-607):
keep a colour only if its `delta_e` to every already-kept colour is at
least 3.  `d` is coloraide's `delta_e`. -/
def color_dedup (d : OkColor → OkColor → ℚ) (colors : List OkColor) : List OkColor :=
  colors.foldl
    (fun uniq c => if uniq.any (fun u => decide (d c u < 3)) then uniq else uniq ++ [c]) []

/-- The palette emitted by `extract_colors` (line 609 and 615-625): the
first 8 deduplicated ranked cluster colours, serialized.  `ranked` is the
list of k-means centroids converted to OKLCH, ranked by population. -/
def extract_colors_palette (d : OkColor → OkColor → ℚ) (ranked : List OkColor) :
    List OklchTok :=
  ((color_dedup d ranked).take 8).map okColorToken

theorem color_dedup_pairwise (d : OkColor → OkColor → ℚ) (colors : List OkColor) :
    List.Pairwise (fun a b => ¬ d b a < 3) (color_dedup d colors) := by
  suffices h : ∀ acc : List OkColor, List.Pairwise (fun a b => ¬ d b a < 3) acc →
      List.Pairwise (fun a b => ¬ d b a < 3)
        (colors.foldl
          (fun uniq c => if uniq.any (fun u => decide (d c u < 3)) then uniq else uniq ++ [c]) acc) by
    exact h [] List.Pairwise.nil
  induction colors with
  | nil => intro acc hacc; exact hacc
  | cons c cs ih =>
    intro acc hacc
    rw [List.foldl_cons]
    by_cases hc : acc.any (fun u => decide (d c u < 3))
    · rw [if_pos hc]
      exact ih acc hacc
    · rw [if_neg hc]
      apply ih
      rw [List.pairwise_append]
      refine ⟨hacc, List.pairwise_singleton _ c, ?_⟩
      intro a ha b hb
      have hb' : b = c := List.mem_singleton.mp hb
      subst hb'
      intro hlt
      apply hc
      rw [List.any_eq_true]
      exact ⟨a, ha, by simpa using hlt⟩

/-- C4: the palette emitted by `extract_colors` has at most 8 entries, and
(using the symmetry of the perceptual metric) every two kept colours are at
Delta-E distance at least 3 from each other. -/
theorem extract_colors_palette_spec (d : OkColor → OkColor → ℚ)
    (hsym : ∀ a b, d a b = d b a) (ranked : List OkColor) :
    (extract_colors_palette d ranked).length ≤ 8 ∧
    List.Pairwise (fun a b => 3 ≤ d a b) ((color_dedup d ranked).take 8) := by
  constructor
  · rw [extract_colors_palette, List.length_map, List.length_take]
    exact min_le_left 8 _
  · have hfull := color_dedup_pairwise d ranked
    have htake := hfull.sublist (List.take_sublist 8 (color_dedup d ranked))
    exact htake.imp (fun {a b} h => by rw [hsym]; exact not_lt.mp h)

/-- Witness for C4 with `d` the lightness distance and a three-colour
ranked list containing a near-duplicate. -/
theorem extract_colors_palette_spec_witness :
    (extract_colors_palette (fun a b => |a.l - b.l|)
        [⟨0, 0, none⟩, ⟨10, 0, none⟩, ⟨11, 0, none⟩]).length ≤ 8 ∧
    List.Pairwise (fun a b => 3 ≤ |a.l - b.l|)
      ((color_dedup (fun a b => |a.l - b.l|)
        [⟨0, 0, none⟩, ⟨10, 0, none⟩, ⟨11, 0, none⟩]).take 8) :=
  extract_colors_palette_spec (fun a b => |a.l - b.l|)
    (fun a b => abs_sub_comm a.l b.l) [⟨0, 0, none⟩, ⟨10, 0, none⟩, ⟨11, 0, none⟩]

/-- One pixel of the working buffer as seen by `extract_shadows`: its LAB
L-channel luminance and its original BGR colour. -/
structure ShadowPix where
  lum : ℚ
  b : ℚ
  g : ℚ
  r : ℚ

/-- The shadow-colour block of `extract_shadows` (lines 820-835): if the
number of pixels with luminance below 50 exceeds 100, emit the mean
original colour of those pixels converted to OKLCH (rounded, NaN hue
coerced to 0), otherwise `None`.  `conv` is coloraide's
`Color(f"rgb(r,g,b)").convert("oklch")` on the truncated channel means. -/
def extract_shadows_color (conv : ℤ → ℤ → ℤ → OkColor) (pxs : List ShadowPix) :
    Option OklchTok :=
  let dark := pxs.filter (fun p => decide (p.lum < 50))
  if 100 < dark.length then
    if 0 < dark.length then
      let n : ℚ := dark.length
      let avgB := (dark.map (fun p => p.b)).sum / n
      let avgG := (dark.map (fun p => p.g)).sum / n
      let avgR := (dark.map (fun p => p.r)).sum / n
      let sc := conv ⌊avgR⌋ ⌊avgG⌋ ⌊avgB⌋
      some ⟨"oklch", pyRound sc.l 3, pyRound sc.c 3, pyRound (sc.h.getD 0) 1⟩
    else none
  else none

/-- C8 counterexample: an image with exactly 100 dark pixels (luminance
below 50) gets a `None` shadow colour, because the code requires strictly
more than 100 dark pixels, not at least 100 as the claim states. -/
theorem extract_shadows_color_at_100 :
    extract_shadows_color (fun _ _ _ => ⟨0, 0, none⟩)
      (List.replicate 100 ⟨0, 0, 0, 0⟩) = none ∧
    100 ≤ ((List.replicate 100 (⟨0, 0, 0, 0⟩ : ShadowPix)).filter
      (fun p => decide (p.lum < 50))).length := by
  have hfil : (List.replicate 100 (⟨0, 0, 0, 0⟩ : ShadowPix)).filter
      (fun p => decide (p.lum < 50)) = List.replicate 100 ⟨0, 0, 0, 0⟩ := by
    apply List.filter_eq_self.mpr
    intro a ha
    rw [List.eq_of_mem_replicate ha]
    decide
  constructor
  · rw [extract_shadows_color]
    simp only [hfil, List.length_replicate]
    norm_num
  · rw [hfil, List.length_replicate]

/-- C8 amended: `extract_shadows` reports a non-null shadow colour exactly
when strictly more than 100 pixels have luminance below 50 (at exactly 100
such pixels the colour is null). -/
theorem extract_shadows_color_iff (conv : ℤ → ℤ → ℤ → OkColor) (pxs : List ShadowPix) :
    (extract_shadows_color conv pxs).isSome = true ↔
      100 < (pxs.filter (fun p => decide (p.lum < 50))).length := by
  rw [extract_shadows_color]
  by_cases h : 100 < (pxs.filter (fun p => decide (p.lum < 50))).length
  · rw [if_pos h, if_pos (by omega)]
    simpa using h
  · rw [if_neg h]
    simpa using h

/-- The `meta` record attached to every token bundle (lines 941-946 and
978-983). -/
structure Meta where
  method : String
  confidence : String
  realtimeSafe : Bool
  parallel : Bool

/-- The token bundle assembled by the orchestrator, keyed by extractor
name.  The per-extractor payload types are parameters because the
extractor bodies live behind OpenCV and coloraide. -/
structure TokenBundle (Col An Sp Br Gr El St : Type) where
  color : Col
  colorAnalysis : An
  spacing : Sp
  borderRadius : Br
  grid : Gr
  elevation : El
  strokeWidth : St
  meta : Meta

/-- The extractor table of `_run_extractor` (lines 908-915): six functions
of the shared immutable buffer.  `color` returns the pair
`(result["colors"], result["analysis"])`. -/
structure Extractors (Col An Sp Br Gr El St : Type) where
  color : Img → Col × An
  spacing : Img → Sp
  borderRadius : Img → Br
  grid : Img → Gr
  elevation : Img → El
  strokeWidth : Img → St

/-- Worker-side buffer reconstruction in `_run_extractor` (line 906):
`np.frombuffer(img.tobytes(), dtype=np.uint8).reshape(img.shape)` rebuilds
an identical array, so it is the identity on the image. -/
def np_bytes_roundtrip (img : Img) : Img := img

/-- Embedding of `extract_design_tokens_sequential` (lines 925-947). -/
def extract_design_tokens_sequential {Col An Sp Br Gr El St : Type}
    (E : Extractors Col An Sp Br Gr El St)
    (cvResize : Img → ℕ → ℕ → (ℕ → ℕ → ℕ × ℕ × ℕ)) (img : Img) :
    TokenBundle Col An Sp Br Gr El St :=
  let img_resized := resize_for_speed cvResize img 512
  let color_result := E.color img_resized
  { color := color_result.1
    colorAnalysis := color_result.2
    spacing := E.spacing img_resized
    borderRadius := E.borderRadius img_resized
    grid := E.grid img_resized
    elevation := E.elevation img_resized
    strokeWidth := E.strokeWidth img_resized
    meta := ⟨"heuristic-cv", "medium-high", true, false⟩ }

/-- Embedding of `extract_design_tokens_parallel` (lines 950-985): the six
extractors run on the byte-roundtripped copy of the same resized buffer
and their results are merged by name (completion order is irrelevant since
the bundle is keyed by field). -/
def extract_design_tokens_parallel {Col An Sp Br Gr El St : Type}
    (E : Extractors Col An Sp Br Gr El St)
    (cvResize : Img → ℕ → ℕ → (ℕ → ℕ → ℕ × ℕ × ℕ)) (img : Img) :
    TokenBundle Col An Sp Br Gr El St :=
  let img_resized := resize_for_speed cvResize img 512
  let worker_img := np_bytes_roundtrip img_resized
  let color_result := E.color worker_img
  { color := color_result.1
    colorAnalysis := color_result.2
    spacing := E.spacing worker_img
    borderRadius := E.borderRadius worker_img
    grid := E.grid worker_img
    elevation := E.elevation worker_img
    strokeWidth := E.strokeWidth worker_img
    meta := ⟨"heuristic-cv", "medium-high", true, true⟩ }

/-- C1 counterexample: the sequential and parallel bundles for the same
image are not equal, because the `meta` records disagree (`parallel` is
`False` in one and `True` in the other). -/
theorem seq_par_bundles_ne :
    extract_design_tokens_sequential
      (⟨fun _ => ((), ()), fun _ => (), fun _ => (), fun _ => (), fun _ => (), fun _ => ()⟩ :
        Extractors Unit Unit Unit Unit Unit Unit Unit)
      (fun _ _ _ => fun _ _ => (0, 0, 0)) ⟨1, 1, fun _ _ => (0, 0, 0)⟩ ≠
    extract_design_tokens_parallel
      (⟨fun _ => ((), ()), fun _ => (), fun _ => (), fun _ => (), fun _ => (), fun _ => ()⟩ :
        Extractors Unit Unit Unit Unit Unit Unit Unit)
      (fun _ _ _ => fun _ _ => (0, 0, 0)) ⟨1, 1, fun _ _ => (0, 0, 0)⟩ := by
  intro h
  have hm := congrArg (fun b => b.meta.parallel) h
  simp only [extract_design_tokens_sequential, extract_design_tokens_parallel] at hm
  cases hm

/-- C1 amended: for every image and every behaviour of the six extractors,
the sequential and parallel bundles agree on every extractor field and on
every `meta` field except the execution-mode flag, which is `false` in
sequential mode and `true` in parallel mode. -/
theorem seq_par_agree_except_parallel_flag {Col An Sp Br Gr El St : Type}
    (E : Extractors Col An Sp Br Gr El St)
    (cvResize : Img → ℕ → ℕ → (ℕ → ℕ → ℕ × ℕ × ℕ)) (img : Img) :
    (extract_design_tokens_sequential E cvResize img).color
      = (extract_design_tokens_parallel E cvResize img).color ∧
    (extract_design_tokens_sequential E cvResize img).colorAnalysis
      = (extract_design_tokens_parallel E cvResize img).colorAnalysis ∧
    (extract_design_tokens_sequential E cvResize img).spacing
      = (extract_design_tokens_parallel E cvResize img).spacing ∧
    (extract_design_tokens_sequential E cvResize img).borderRadius
      = (extract_design_tokens_parallel E cvResize img).borderRadius ∧
    (extract_design_tokens_sequential E cvResize img).grid
      = (extract_design_tokens_parallel E cvResize img).grid ∧
    (extract_design_tokens_sequential E cvResize img).elevation
      = (extract_design_tokens_parallel E cvResize img).elevation ∧
    (extract_design_tokens_sequential E cvResize img).strokeWidth
      = (extract_design_tokens_parallel E cvResize img).strokeWidth ∧
    (extract_design_tokens_sequential E cvResize img).meta.method
      = (extract_design_tokens_parallel E cvResize img).meta.method ∧
    (extract_design_tokens_sequential E cvResize img).meta.confidence
      = (extract_design_tokens_parallel E cvResize img).meta.confidence ∧
    (extract_design_tokens_sequential E cvResize img).meta.realtimeSafe
      = (extract_design_tokens_parallel E cvResize img).meta.realtimeSafe ∧
    (extract_design_tokens_sequential E cvResize img).meta.parallel = false ∧
    (extract_design_tokens_parallel E cvResize img).meta.parallel = true :=
  ⟨rfl, rfl, rfl, rfl, rfl, rfl, rfl, rfl, rfl, rfl, rfl, rfl⟩

/-- The paired edge-delta collection of `extract_spacing` (lines 655-664)
for one box against the later boxes: `|Δx|` then `|Δy|` are kept when
strictly between 2 and 200.  A box is the `(x, y)` corner from
`connectedComponentsWithStats` (background already dropped). -/
def pairDeltasWith (a : ℤ × ℤ) (bs : List (ℤ × ℤ)) : List ℤ :=
  (bs.map (fun b =>
    (if 2 < |a.1 - b.1| ∧ |a.1 - b.1| < 200 then [|a.1 - b.1|] else []) ++
    (if 2 < |a.2 - b.2| ∧ |a.2 - b.2| < 200 then [|a.2 - b.2|] else []))).flatten

/-- All in-order `i < j` box pairs of the `extract_spacing` double loop. -/
def pairDeltas : List (ℤ × ℤ) → List ℤ
  | [] => []
  | a :: bs => pairDeltasWith a bs ++ pairDeltas bs

/-- Embedding of `extract_spacing` (lines 640-667) from the component
bounding-box corners: collect filtered pairwise deltas, cap at the first
100, quantize against the spacing snap scale. -/
def extract_spacing (boxes : List (ℤ × ℤ)) : Option (List ℚ) :=
  quantize_values (((pairDeltas boxes).take 100).map (fun z => (z : ℚ)))
    [4, 8, 12, 16, 24, 32, 48, 64]

/-- A contour as measured by OpenCV in `extract_border_radius`: its
`cv2.contourArea`, the vertex count of its `approxPolyDP` polygon
approximation (epsilon 2 percent of perimeter), and its `cv2.arcLength`
perimeter. -/
structure Contour where
  area : ℚ
  approxLen : ℕ
  peri : ℚ

/-- Embedding of `extract_border_radius` (lines 674-700): drop contours of
area below 200, keep `perimeter / (2 * pi)` for contours whose polygon
approximation has at least 4 vertices, cap at the first 50, quantize.
`rad` supplies the irrational `peri / (2 * np.pi)`. -/
def extract_border_radius (rad : ℚ → ℚ) (cs : List Contour) : Option (List ℚ) :=
  let radii := (cs.map (fun k =>
    if k.area < 200 then []
    else if 4 ≤ k.approxLen then [rad k.peri] else [])).flatten
  quantize_values (radii.take 50) [0, 4, 6, 8, 12, 16, 24, 32]

/-- A grayscale buffer (`cv2.cvtColor(img, cv2.COLOR_BGR2GRAY)`), pixel
values addressed row, column. -/
structure GrayImg where
  hgt : ℕ
  wdt : ℕ
  px : ℕ → ℕ → ℚ

/-- The grid record `{ "columns": .., "rows": .. }`. -/
structure Grid where
  columns : ℕ
  rows : ℕ
deriving DecidableEq

/-- NumPy `np.diff`: successive differences `a[i+1] - a[i]`. -/
def npDiff (l : List ℚ) : List ℚ := List.zipWith (fun a b => b - a) l l.tail

/-- Count of positions where the absolute first difference exceeds 20
(`np.sum(np.abs(np.diff(proj)) > 20)`). -/
def diffExceed20 (l : List ℚ) : ℕ := (npDiff l).countP (fun d => decide (20 < |d|))

/-- Column means `gray.mean(axis=0)`. -/
def proj_x (g : GrayImg) : List ℚ :=
  (List.range g.wdt).map
    (fun j => ((List.range g.hgt).map (fun i => g.px i j)).sum / (g.hgt : ℚ))

/-- Row means `gray.mean(axis=1)`. -/
def proj_y (g : GrayImg) : List ℚ :=
  (List.range g.hgt).map
    (fun i => ((List.range g.wdt).map (fun j => g.px i j)).sum / (g.wdt : ℚ))

/-- Embedding of `extract_grid` (lines 707-725). -/
def extract_grid (g : GrayImg) : Grid :=
  ⟨max 1 (diffExceed20 (proj_x g)), max 1 (diffExceed20 (proj_y g))⟩

/-- Python `np.max` over a list; only called on nonempty lists (the code
guards it behind a short-circuiting `or`). -/
def listMax : List ℚ → ℚ
  | [] => 0
  | x :: xs => xs.foldl max x

/-- Embedding of `extract_strokes` (lines 858-894) from the distance
transform samples: `widths` are the distance-transform values at skeleton
pixels; `fallback_widths` the positive values of the dilated-edge distance
transform used when the skeleton samples are missing or all below 0.5.
The first 200 samples are doubled and quantized; with no samples at all
the default `[1]` is returned. -/
def extract_strokes (widths fallback_widths : List ℚ) : Option (List ℚ) :=
  let ws := if widths = [] ∨ listMax widths < 1 / 2 then fallback_widths else widths
  if ws = [] then some [1]
  else quantize_values ((ws.take 200).map (fun w => w * 2)) [1, 2, 3, 4, 6, 8]

theorem quantize_values_isSome (vs S : List ℚ) (hS : S ≠ []) :
    ∃ out, quantize_values vs S = some out := by
  obtain ⟨out, hout, -⟩ := quantize_values_core vs S hS
  exact ⟨out, hout⟩

theorem diffExceed20_const (l : List ℚ) (c : ℚ) (h : ∀ x ∈ l, x = c) :
    diffExceed20 l = 0 := by
  rw [diffExceed20, List.countP_eq_zero]
  intro d hd
  suffices hzero : d = 0 by
    rw [hzero]
    decide
  revert hd
  induction l with
  | nil => intro hd; cases hd
  | cons x xs ih =>
    intro hd
    cases xs with
    | nil => cases hd
    | cons y ys =>
      have hx : x = c := h x (List.mem_cons_self _ _)
      have hy : y = c := h y (List.mem_cons_of_mem _ (List.mem_cons_self _ _))
      rw [npDiff] at hd
      simp only [List.tail_cons, List.zipWith_cons_cons] at hd
      rcases List.mem_cons.mp hd with h1 | h1
      · rw [h1, hx, hy]; ring
      · exact ih (fun z hz => h z (List.mem_cons_of_mem _ hz)) h1

theorem sum_map_const {α : Type} (l : List α) (c : ℚ) :
    (l.map (fun _ => c)).sum = (l.length : ℚ) * c := by
  induction l with
  | nil => simp
  | cons x xs ih =>
    simp only [List.map_cons, List.sum_cons, ih, List.length_cons]
    push_cast
    ring

theorem proj_const (g : GrayImg) (c : ℚ) (h : ∀ i j, g.px i j = c) :
    (∀ x ∈ proj_x g, x = ((g.hgt : ℚ) * c) / (g.hgt : ℚ)) ∧
    (∀ x ∈ proj_y g, x = ((g.wdt : ℚ) * c) / (g.wdt : ℚ)) := by
  constructor
  · intro x hx
    rw [proj_x] at hx
    obtain ⟨j, -, hj⟩ := List.mem_map.mp hx
    rw [← hj]
    congr 1
    have heq : ((List.range g.hgt).map fun i => g.px i j) = (List.range g.hgt).map fun _ => c := by
      apply List.map_congr_left
      intro i _
      exact h i j
    rw [heq, sum_map_const, List.length_range]
  · intro x hx
    rw [proj_y] at hx
    obtain ⟨i, -, hi⟩ := List.mem_map.mp hx
    rw [← hi]
    congr 1
    have heq : ((List.range g.wdt).map fun j => g.px i j) = (List.range g.wdt).map fun _ => c := by
      apply List.map_congr_left
      intro j _
      exact h i j
    rw [heq, sum_map_const, List.length_range]

/-- C7: on degenerate inputs no extractor fails: `extract_spacing` and
`extract_border_radius` always return a value and return the empty scale
when there are no components/contours; `extract_grid` always reports at
least one column and one row and reports exactly `{1, 1}` on a uniform
image; `extract_strokes` always returns a nonempty scale and returns the
default `[1]` when no width samples exist at all. -/
theorem extractors_degenerate_defaults
    (boxes : List (ℤ × ℤ)) (rad : ℚ → ℚ) (cs : List Contour)
    (g : GrayImg) (c : ℚ) (widths fallback_widths : List ℚ) :
    (∃ sp, extract_spacing boxes = some sp) ∧
    (boxes = [] → extract_spacing boxes = some []) ∧
    (∃ br, extract_border_radius rad cs = some br) ∧
    (cs = [] → extract_border_radius rad cs = some []) ∧
    1 ≤ (extract_grid g).columns ∧ 1 ≤ (extract_grid g).rows ∧
    ((∀ i j, g.px i j = c) → extract_grid g = ⟨1, 1⟩) ∧
    (∃ st, extract_strokes widths fallback_widths = some st ∧ st ≠ []) ∧
    (widths = [] → fallback_widths = [] →
      extract_strokes widths fallback_widths = some [1]) := by
  refine ⟨?_, ?_, ?_, ?_, le_max_left 1 _, le_max_left 1 _, ?_, ?_, ?_⟩
  · obtain ⟨out, hout, -⟩ := quantize_values_core
      (((pairDeltas boxes).take 100).map (fun z => (z : ℚ))) [4, 8, 12, 16, 24, 32, 48, 64]
      (by decide)
    exact ⟨out, hout⟩
  · intro h
    rw [h]
    rfl
  · exact quantize_values_isSome _ _ (by decide)
  · intro h
    rw [h]
    rfl
  · intro h
    obtain ⟨hx, hy⟩ := proj_const g c h
    rw [extract_grid, diffExceed20_const _ _ hx, diffExceed20_const _ _ hy]
    decide
  · show ∃ st, (let ws := if widths = [] ∨ listMax widths < 1 / 2 then fallback_widths else widths
      if ws = [] then some [1]
      else quantize_values ((ws.take 200).map (fun w => w * 2)) [1, 2, 3, 4, 6, 8]) = some st ∧ st ≠ []
    set ws := if widths = [] ∨ listMax widths < 1 / 2 then fallback_widths else widths with hwsdef
    by_cases hws : ws = []
    · rw [if_pos hws]
      exact ⟨[1], rfl, by decide⟩
    · rw [if_neg hws]
      obtain ⟨out, hout, -, -, -, hne, -⟩ := quantize_values_core
        ((ws.take 200).map (fun w => w * 2)) [1, 2, 3, 4, 6, 8] (by decide)
      refine ⟨out, hout, hne ?_⟩
      intro hc
      apply hws
      have hlen := congrArg List.length hc
      rw [List.length_map, List.length_take, List.length_nil] at hlen
      rcases Nat.min_eq_zero_iff.mp hlen with h0 | h0
      · omega
      · exact List.length_eq_zero.mp h0
  · intro h1 h2
    subst h1
    subst h2
    decide

/-- Witness for C7 at concrete degenerate inputs: no boxes, no contours, a
uniform 2 by 2 gray image, and no stroke samples. -/
theorem extractors_degenerate_defaults_witness :
    extract_spacing [] = some [] ∧
    extract_border_radius (fun q => q) [] = some [] ∧
    extract_grid ⟨2, 2, fun _ _ => 7⟩ = ⟨1, 1⟩ ∧
    extract_strokes [] [] = some [1] := by
  obtain ⟨-, h2, -, h4, -, -, h7, -, h9⟩ :=
    extractors_degenerate_defaults [] (fun q => q) [] ⟨2, 2, fun _ _ => 7⟩ 7 [] []
  exact ⟨h2 rfl, h4 rfl, h7 (fun _ _ => rfl), h9 rfl rfl⟩

/-- Python float modulo with modulus 360 (`h % 360`): result in
`[0, 360)`. -/
def qmod360 (x : ℚ) : ℚ := x - 360 * ⌊x / 360⌋

/-- Insertion step of an ascending sort (Python `sorted`). -/
def insertLe (x : ℚ) : List ℚ → List ℚ
  | [] => [x]
  | y :: ys => if x < y then x :: y :: ys else y :: insertLe x ys

/-- Python `sorted(l)` for rationals. -/
def sortAsc (l : List ℚ) : List ℚ := l.foldr insertLe []

/-- Python `min` over a nonempty list (junk value 0 on empty input). -/
def listMin : List ℚ → ℚ
  | [] => 0
  | x :: xs => xs.foldl min x

/-- The chromatic filter of `analyze_color_harmony` (line 224):
`c['c'] > 0.02`. -/
def chromatic (colors : List OkColor) : List OkColor :=
  colors.filter (fun c => decide (2 / 100 < c.c))

/-- Hue collection of `analyze_color_harmony` (lines 228-237): defined
hues of the chromatic colours, reduced mod 360, sorted ascending. -/
def extractHues (colors : List OkColor) : List ℚ :=
  sortAsc ((chromatic colors).filterMap (fun c => c.h.map qmod360))

/-- One classified hue pair (an entry of `relationships`). -/
structure HarmonyRel where
  ty : String
  h1 : ℚ
  h2 : ℚ
  angle : ℚ
deriving DecidableEq

/-- The harmony report (`analyze_color_harmony`'s return dict); the early
returns carry no `hueRange` key, modelled by `none`. -/
structure Harmony where
  ty : String
  strength : ℚ
  hueRange : Option ℚ
  rels : List HarmonyRel
deriving DecidableEq

/-- All ordered pairs `(hues[i], hues[j])` with `i < j` in loop order
(lines 252-253). -/
def pairsOf : List ℚ → List (ℚ × ℚ)
  | [] => []
  | x :: xs => xs.map (fun y => (x, y)) ++ pairsOf xs

/-- Pair classification of `analyze_color_harmony` (lines 254-269):
circular hue difference, then the angle windows for analogous,
complementary, triadic and tetradic; unclassified pairs produce nothing. -/
def classifyPair (a b : ℚ) : Option HarmonyRel :=
  let d0 := |a - b|
  let d := if 180 < d0 then 360 - d0 else d0
  if d < 30 then some ⟨"analogous", a, b, d⟩
  else if 150 < d ∧ d < 210 then some ⟨"complementary", a, b, d⟩
  else if 110 < d ∧ d < 130 then some ⟨"triadic", a, b, d⟩
  else if 80 < d ∧ d < 100 then some ⟨"tetradic", a, b, d⟩
  else none

/-- The post-guard body of `analyze_color_harmony` (lines 237-299) on the
sorted hue list: hue range with wrap, pair classification with counts, and
the priority cascade choosing the overall harmony type and strength. -/
def harmony_core (hues : List ℚ) : Harmony :=
  let hr0 := listMax hues - listMin hues
  let hue_range := if 180 < hr0 then 360 - hr0 else hr0
  let rels := (pairsOf hues).filterMap (fun p => classifyPair p.1 p.2)
  let nA := rels.countP (fun r => decide (r.ty = "analogous"))
  let nC := rels.countP (fun r => decide (r.ty = "complementary"))
  let nT := rels.countP (fun r => decide (r.ty = "triadic"))
  let nQ := rels.countP (fun r => decide (r.ty = "tetradic"))
  let tys :=
    if hue_range < 15 then ("monochromatic", 1 - hue_range / 15)
    else if 0 < nC ∧ 0 < nA then ("split-complementary", (8 : ℚ) / 10)
    else if nA ≤ nC then
      (if 0 < nC then ("complementary", min 1 ((nC : ℚ) / (hues.length : ℚ)))
       else ("analogous", (1 : ℚ) / 2))
    else if 2 ≤ nT then ("triadic", min 1 ((nT : ℚ) / 3))
    else if 3 ≤ nQ then ("tetradic", min 1 ((nQ : ℚ) / 4))
    else ("analogous", min 1 ((nA : ℚ) / ((max 1 (hues.length - 1) : ℕ) : ℚ)))
  ⟨tys.1, pyRound tys.2 2, some (pyRound hue_range 1), rels.take 5⟩

/-- Embedding of `analyze_color_harmony` (lines 208-299): the three guard
returns for tiny palettes followed by the classification core. -/
def analyze_color_harmony (colors : List OkColor) : Harmony :=
  if colors.length < 2 then ⟨"monochromatic", 1, none, []⟩
  else if (chromatic colors).length < 2 then ⟨"achromatic", 1, none, []⟩
  else
    let hues := extractHues colors
    if hues.length < 2 then ⟨"monochromatic", 1, none, []⟩
    else harmony_core hues

theorem classifyPair_0_180 :
    classifyPair 0 180 = some ⟨"complementary", 0, 180, 180⟩ := by
  have habs : |(0 : ℚ) - 180| = 180 := by
    rw [show (0 : ℚ) - 180 = -(180 : ℚ) by ring, abs_neg,
      abs_of_nonneg (by norm_num : (0 : ℚ) ≤ 180)]
  rw [classifyPair]
  simp only [habs]
  norm_num

theorem harmony_core_0_180 : (harmony_core [0, 180]).ty = "complementary" := by
  have hpairs : pairsOf [0, 180] = [((0 : ℚ), (180 : ℚ))] := by
    simp [pairsOf]
  have hrels : (pairsOf [0, 180]).filterMap (fun p => classifyPair p.1 p.2)
      = [⟨"complementary", 0, 180, 180⟩] := by
    rw [hpairs]
    simp [classifyPair_0_180]
  have hrange : listMax [0, 180] - listMin [0, 180] = 180 := by
    have hmax : listMax [0, 180] = max 0 180 := rfl
    have hmin : listMin [0, 180] = min 0 180 := rfl
    rw [hmax, hmin, max_eq_right (by norm_num : (0 : ℚ) ≤ 180),
      min_eq_left (by norm_num : (0 : ℚ) ≤ 180)]
    norm_num
  rw [harmony_core]
  simp only [hrels, hrange]
  norm_num [List.countP_cons, List.countP_nil]
  decide

/-- C9: a palette whose chromatic members are exactly two colours with
hues 0 and 180 degrees is classified as complementary. -/
theorem analyze_color_harmony_complementary (colors : List OkColor)
    (hch : (chromatic colors).length = 2)
    (hh : extractHues colors = [0, 180]) :
    (analyze_color_harmony colors).ty = "complementary" := by
  have h1 : ¬ colors.length < 2 := by
    have hle : (chromatic colors).length ≤ colors.length := List.length_filter_le _ _
    omega
  have h2 : ¬ (chromatic colors).length < 2 := by omega
  have h3 : ¬ ([0, 180] : List ℚ).length < 2 := by norm_num
  rw [analyze_color_harmony, if_neg h1, if_neg h2]
  simp only [hh]
  rw [if_neg h3]
  exact harmony_core_0_180

/-- Witness for C9: two mid-lightness chromatic colours at hue 0 and hue
180. -/
theorem analyze_color_harmony_complementary_witness :
    (analyze_color_harmony [⟨1/2, 1/10, some 0⟩, ⟨1/2, 1/10, some 180⟩]).ty
      = "complementary" := by
  have hchrom : chromatic [⟨1/2, 1/10, some 0⟩, ⟨1/2, 1/10, some 180⟩]
      = [⟨1/2, 1/10, some 0⟩, ⟨1/2, 1/10, some 180⟩] := by
    rw [chromatic]
    apply List.filter_eq_self.mpr
    intro a ha
    rcases List.mem_cons.mp ha with h | h
    · rw [h]; norm_num
    · rw [List.mem_singleton.mp h]; norm_num
  have hmod0 : qmod360 0 = 0 := by norm_num [qmod360]
  have hmod180 : qmod360 180 = 180 := by
    rw [qmod360]
    norm_num
  have hfm : ([⟨1/2, 1/10, some 0⟩, ⟨1/2, 1/10, some 180⟩] : List OkColor).filterMap
      (fun c => c.h.map qmod360) = [qmod360 0, qmod360 180] := rfl
  have hhues : extractHues [⟨1/2, 1/10, some 0⟩, ⟨1/2, 1/10, some 180⟩] = [0, 180] := by
    rw [extractHues, hchrom, hfm, hmod0, hmod180]
    rw [sortAsc]
    simp only [List.foldr_cons, List.foldr_nil]
    rw [show insertLe (180 : ℚ) [] = [180] from rfl, insertLe,
      if_pos (by norm_num : (0 : ℚ) < 180)]
  exact analyze_color_harmony_complementary
    [⟨1/2, 1/10, some 0⟩, ⟨1/2, 1/10, some 180⟩]
    (by rw [hchrom]; rfl) hhues

/-- NumPy `np.percentile(l, 90)` with the default linear interpolation
between order statistics (junk value 0 on an empty array, which NumPy
rejects). -/
def np_percentile90 (l : List ℚ) : ℚ :=
  let s := sortAsc l
  if s.length = 0 then 0
  else
    let pos : ℚ := (9 / 10) * ((s.length : ℚ) - 1)
    let i : ℕ := (⌊pos⌋).toNat
    let lo := s.getD i 0
    let hi := s.getD (i + 1) lo
    lo + (pos - (i : ℚ)) * (hi - lo)

/-- The 8-sector compass classification of the gradient angle in
`extract_shadows` (lines 770-785). -/
def sectorOf (angle : ℚ) : String :=
  if -45/2 ≤ angle ∧ angle < 45/2 then "right"
  else if 45/2 ≤ angle ∧ angle < 135/2 then "bottom-right"
  else if 135/2 ≤ angle ∧ angle < 225/2 then "bottom"
  else if 225/2 ≤ angle ∧ angle < 315/2 then "bottom-left"
  else if 315/2 ≤ angle ∨ angle < -315/2 then "left"
  else if -315/2 ≤ angle ∧ angle < -225/2 then "top-left"
  else if -225/2 ≤ angle ∧ angle < -135/2 then "top"
  else "top-right"

/-- The gradient-direction block of `extract_shadows` (lines 761-788) and
its contribution to the output record (`direction`,
`round(float(angle), 1)`).  `gx`, `gy` are the flattened Sobel gradients,
`mags` their elementwise magnitudes `sqrt(gx^2 + gy^2)`, and `atan2deg`
stands for `np.degrees(np.arctan2(..))`.  Pixels whose magnitude strictly
exceeds the 90th percentile are the strong gradients; with none, the
direction is ambient with angle 0. -/
def extract_shadows_direction (atan2deg : ℚ → ℚ → ℚ)
    (gx gy mags : List ℚ) : String × ℚ :=
  let thr := np_percentile90 mags
  let strongCount := mags.countP (fun m => decide (thr < m))
  if 0 < strongCount then
    let sgx := ((gx.zip mags).filter (fun p => decide (thr < p.2))).map Prod.fst
    let sgy := ((gy.zip mags).filter (fun p => decide (thr < p.2))).map Prod.fst
    let avg_grad_x := sgx.sum / (sgx.length : ℚ)
    let avg_grad_y := sgy.sum / (sgy.length : ℚ)
    let angle := atan2deg avg_grad_y avg_grad_x
    (sectorOf angle, pyRound angle 1)
  else ("ambient", pyRound 0 1)

/-- C10: when no pixel's gradient magnitude strictly exceeds the
90th-percentile threshold, `extract_shadows` reports the ambient direction
with angle exactly 0. -/
theorem extract_shadows_direction_ambient (atan2deg : ℚ → ℚ → ℚ)
    (gx gy mags : List ℚ)
    (h : ∀ m ∈ mags, ¬ np_percentile90 mags < m) :
    extract_shadows_direction atan2deg gx gy mags = ("ambient", 0) := by
  have hc : mags.countP (fun m => decide (np_percentile90 mags < m)) = 0 := by
    rw [List.countP_eq_zero]
    intro a ha
    simpa using h a ha
  have hr : pyRound 0 1 = 0 := by
    norm_num [pyRound]
  rw [extract_shadows_direction]
  simp only [hc, lt_self_iff_false, if_false]
  rw [hr]

/-- Witness for C10 on a uniform gradient field: all magnitudes equal the
percentile, so none strictly exceeds it. -/
theorem extract_shadows_direction_ambient_witness :
    extract_shadows_direction (fun _ _ => 37) [1, 2, 3, 4] [4, 3, 2, 1] [5, 5, 5, 5]
      = ("ambient", 0) := by
  have hi1 : insertLe (5 : ℚ) [] = [5] := rfl
  have hi2 : insertLe (5 : ℚ) [5] = [5, 5] := by
    rw [insertLe, if_neg (by norm_num : ¬ (5 : ℚ) < 5), hi1]
  have hi3 : insertLe (5 : ℚ) [5, 5] = [5, 5, 5] := by
    rw [insertLe, if_neg (by norm_num : ¬ (5 : ℚ) < 5), hi2]
  have hi4 : insertLe (5 : ℚ) [5, 5, 5] = [5, 5, 5, 5] := by
    rw [insertLe, if_neg (by norm_num : ¬ (5 : ℚ) < 5), hi3]
  have hsort : sortAsc [5, 5, 5, 5] = [(5 : ℚ), 5, 5, 5] := by
    rw [sortAsc]
    simp only [List.foldr_cons, List.foldr_nil]
    rw [hi1, hi2, hi3, hi4]
  have hp90 : np_percentile90 [5, 5, 5, 5] = 5 := by
    rw [np_percentile90]
    simp only [hsort]
    norm_num [List.getD]
    simp only [show ((2 : ℤ).toNat) = 2 from rfl]
    norm_num
  exact extract_shadows_direction_ambient (fun _ _ => 37) [1, 2, 3, 4] [4, 3, 2, 1]
    [5, 5, 5, 5] (by
      intro m hm
      have hm5 : m = 5 := by
        rcases List.mem_cons.mp hm with h | h
        · exact h
        · rcases List.mem_cons.mp h with h | h
          · exact h
          · rcases List.mem_cons.mp h with h | h
            · exact h
            · exact List.mem_singleton.mp h
      rw [hm5, hp90]
      exact lt_irrefl 5)

end StyleVault
